import Mathlib

/-!
Shallow embedding of `src/collapse-perf.rs` (the inferno perf-script stack
collapser) and verification of the frozen claims about it.

Strings are modelled as `List Char`; Rust byte indices coincide with char
positions for the slice boundaries used by the source (all boundaries come
from `char_indices`, so slicing at them is exactly slicing the char list).
The fallible stack-line parser is modelled with an explicit `crash`
constructor for the unchecked slice `&module[1..module.len() - 1]`, which
in Rust aborts the process (index underflow / out-of-range slice) when the
final token has length `< 2`.
-/

set_option maxRecDepth 4000

namespace Inferno

/-- Strings of the modelled program. -/
abbrev Str := List Char

/-- The boolean run options of `struct Opt` (the `infile` I/O field is
omitted; `annotate_all` is declared by the source but never read). -/
structure Opt where
  include_pid : Bool
  include_tid : Bool
  include_addrs : Bool
  annotate_jit : Bool
  annotate_kernel : Bool
  annotate_all : Bool
  deriving DecidableEq

/-- A run with every option off, as when no flags are passed. -/
def optNone : Opt := ⟨false, false, false, false, false, false⟩

/-- `line.trim_end()`: drop trailing whitespace. -/
def trimEnd (l : Str) : Str := ((l.reverse).dropWhile Char.isWhitespace).reverse

/-- `char::is_ascii_hexdigit`. -/
def isAsciiHexDigit (c : Char) : Bool :=
  c.isDigit || ('a' ≤ c && c ≤ 'f') || ('A' ≤ c && c ≤ 'F')

/-- `s.replace(';', ":")` on a function name: every `;` becomes `:`. -/
def replaceSemi (s : Str) : Str := s.map (fun c => if c = ';' then ':' else c)

/-- `comm.replace(' ', "_")`: every space becomes an underscore. -/
def replaceSpaces (s : Str) : Str := s.map (fun c => if c = ' ' then '_' else c)

/-- `PerfState`, the parser state of the source (`diags` additionally
records the lines written to stderr by `eprintln!`/`eprint!`). -/
structure PerfState where
  in_event : Bool
  skip_stack : Bool
  stack : List Str
  occurrences : List (Str × Nat)
  pname : Str
  opt : Opt
  diags : List Str
  deriving DecidableEq

/-- `PerfState::from(opt)`. -/
def PerfState.init (opt : Opt) : PerfState :=
  { in_event := false, skip_stack := false, stack := [], occurrences := [],
    pname := [], opt := opt, diags := [] }

/-- `*occurrences.entry(key).or_insert(0) += 1` on the assoc-list model of
the `HashMap`. -/
def bump : List (Str × Nat) → Str → List (Str × Nat)
  | [], k => [(k, 1)]
  | (k', n) :: rest, k =>
      if k' = k then (k', n + 1) :: rest else (k', n) :: bump rest k

/-- Map lookup with default `0` (an absent key has been counted 0 times). -/
def lookupOcc : List (Str × Nat) → Str → Nat
  | [], _ => 0
  | (k', n) :: rest, k => if k' = k then n else lookupOcc rest k

/-- Scanner state of `event_line_parts`: `word_start`, `all_digits`,
`contains_slash_at`. -/
structure ElpSt where
  word_start : Nat
  all_digits : Bool
  contains_slash_at : Option Nat
  deriving DecidableEq

/-- The `for (idx, c) in line.char_indices()` loop of `event_line_parts`.
`inr (word_start, contains_slash_at, idx)` is the early `return` taken on a
space while `all_digits` holds; `inl` is falling off the end of the line. -/
def elpRun (idx : Nat) (st : ElpSt) : Str → ElpSt ⊕ (Nat × Option Nat × Nat)
  | [] => .inl st
  | c :: cs =>
    if c = ' ' then
      if st.all_digits then .inr (st.word_start, st.contains_slash_at, idx)
      else elpRun (idx + 1) ⟨idx + 1, true, st.contains_slash_at⟩ cs
    else if c = '/' then
      elpRun (idx + 1)
        (if st.all_digits then ⟨st.word_start, st.all_digits, some idx⟩ else st) cs
    else if c.isDigit then
      elpRun (idx + 1) st cs
    else
      elpRun (idx + 1) ⟨st.word_start, false, none⟩ cs

/-- `&line[a..b]`. -/
def slice (l : Str) (a b : Nat) : Str := (l.take b).drop a

/-- `PerfState::event_line_parts`: returns `(comm, pid, tid)`. -/
def event_line_parts (line : Str) : Option (Str × Str × Str) :=
  match elpRun 0 ⟨0, false, none⟩ line with
  | .inl _ => none
  | .inr (ws, some slash, idx) =>
      some (line.take (ws - 1), slice line ws slash, slice line (slash + 1) idx)
  | .inr (ws, none, idx) =>
      some (line.take (ws - 1), ['?'], slice line ws idx)

/-- `pname` construction at the end of `on_event_line`. -/
def mkPname (opt : Opt) (comm pid tid : Str) : Str :=
  let p := replaceSpaces comm
  if opt.include_tid then p ++ '-' :: (pid ++ '/' :: tid)
  else if opt.include_pid then p ++ '-' :: pid
  else p

/-- `PerfState::on_event_line`. The event-name filter in the source is
computed but statically disabled (`if false { self.skip_stack = true }`),
so it has no effect on the state and is not modelled. -/
def on_event_line (s : PerfState) (line : Str) : PerfState :=
  let s1 : PerfState := { s with in_event := true }
  match event_line_parts line with
  | some (comm, pid, tid) => { s1 with pname := mkPname s1.opt comm pid tid }
  | none =>
      { s1 with in_event := false,
                diags := s1.diags ++ [ "weird event line: ".data ++ line] }

/-- Result of `stack_line_parts`: `ok` is `Some((pc, rawfunc, module))`,
`malformed` is `None`, and `crash` models the Rust panic (index underflow
or out-of-range slice) in `&module[1..module.len() - 1]`. -/
inductive StackParts where
  | ok (pc rawfunc module : Str)
  | malformed
  | crash
  deriving DecidableEq

/-- Whether a parse produced a triple. -/
def StackParts.isOk : StackParts → Bool
  | .ok _ _ _ => true
  | _ => false

/-- `str::splitn(2, ' ')` as (first word, rest after the first space);
the rest is `none` when the string has no space. -/
def splitOnce (sep : Char) : Str → Str × Option Str
  | [] => ([], none)
  | c :: cs =>
    if c = sep then ([], some cs)
    else
      let (w, r) := splitOnce sep cs
      (c :: w, r)

/-- `str::rsplitn(2, ' ')` as (part after the last space, part before it);
the second component is `none` when the string has no space. -/
def rsplitOnce (sep : Char) : Str → Str × Option Str
  | [] => ([], none)
  | c :: cs =>
    match rsplitOnce sep cs with
    | (w, some r) => (w, some (c :: r))
    | (w, none) => if c = sep then (w, some []) else (c :: w, none)

/-- `PerfState::stack_line_parts`. -/
def stack_line_parts (line : Str) : StackParts :=
  let t := line.dropWhile Char.isWhitespace
  match splitOnce ' ' t with
  | (_, none) => .malformed
  | (pc, some rest) =>
    match rsplitOnce ' ' rest with
    | (module0, before?) =>
      if module0.length < 2 then .crash
      else
        let module := (module0.drop 1).dropLast
        match before? with
        | none => .malformed
        | some rawfunc => .ok pc rawfunc module

/-- Last index at which the predicate holds (`str::rfind(char)`). -/
def rfindIdx (p : Char → Bool) : Str → Option Nat
  | [] => none
  | c :: cs =>
    match rfindIdx p cs with
    | some i => some (i + 1)
    | none => if p c then some 0 else none

/-- Does the list begin with the three characters `+0x`? -/
def startsPlus0x : Str → Bool
  | '+' :: '0' :: 'x' :: _ => true
  | _ => false

/-- Last index at which `+0x` occurs (`rawfunc.rfind("+0x")`). -/
def rfindPlus0x : Str → Option Nat
  | [] => none
  | c :: cs =>
    match rfindPlus0x cs with
    | some i => some (i + 1)
    | none => if startsPlus0x (c :: cs) then some 0 else none

/-- The symbol-offset stripping step at the top of `on_stack_line`. -/
def strip_offset (rawfunc : Str) : Str :=
  match rfindPlus0x rawfunc with
  | some offset =>
    if (rawfunc.drop (offset + 3)).all isAsciiHexDigit then rawfunc.take offset
    else rawfunc
  | none => rawfunc

/-- `with_module_fallback`. -/
def with_module_fallback (module rawfunc pc : Str) (include_addrs : Bool) : Str :=
  if rawfunc = "[unknown]".data then
    let f :=
      if module ≠ "[unknown]".data then
        module.drop (((rfindIdx (fun c => c = '/') module).map (fun i => i + 1)).getD 0)
      else "unknown".data
    if include_addrs then '[' :: (f ++ ' ' :: '<' :: (pc ++ ">]".data))
    else '[' :: (f ++ "]".data)
  else rawfunc

/-- `tidy_generic`. `func.get((first_paren - 1)..first_paren)` is `None`
when `first_paren = 0` (invalid range after the wrapping subtraction) and
otherwise the one-character slice before the parenthesis. -/
def tidy_generic (func0 : Str) : Str :=
  let func := replaceSemi func0
  match func.findIdx? (fun c => c = '(') with
  | none => func
  | some p =>
    if ( "anonymous namespace)".data).isPrefixOf (func.drop p) then func
    else if p ≠ 0 ∧ func[p - 1]? = some '.' then func
    else func.take p

/-- The frame computation of `on_stack_line` after a successful parse:
offset stripping, the `(`-prefixed skip, module fallback, generic tidying
and the kernel/JIT annotations. `none` means the frame is discarded. -/
def processFrame (opt : Opt) (pc rawfunc module : Str) : Option Str :=
  let rawfunc := strip_offset rawfunc
  if rawfunc.head? = some '(' then none
  else
    let func := with_module_fallback module rawfunc pc opt.include_addrs
    let func := tidy_generic func
    let func :=
      if opt.annotate_kernel = true ∧
          (module.head? = some '[' ∨ ( "vmlinux".data).isSuffixOf module = true) ∧
          module ≠ "[unknown]".data
      then func ++ "_[k]".data else func
    let func :=
      if opt.annotate_jit = true ∧ ( "/tmp/perf-".data).isPrefixOf module = true ∧
          ( ".map".data).isSuffixOf module = true
      then func ++ "_[j]".data else func
    some func

/-- `PerfState::on_stack_line`; `none` models the process dying in the
unchecked module slice. -/
def on_stack_line (s : PerfState) (line : Str) : Option PerfState :=
  if s.skip_stack = true then some s
  else
    match stack_line_parts line with
    | .crash => none
    | .malformed =>
        some { s with diags := s.diags ++ [ "weird stack line: ".data ++ line] }
    | .ok pc rawfunc module =>
      match processFrame s.opt pc rawfunc module with
      | none => some s
      | some func => some { s with stack := func :: s.stack }

/-- `PerfState::on_line`. -/
def on_line (s : PerfState) (line : Str) : Option PerfState :=
  if s.in_event = false then some (on_event_line s line) else on_stack_line s line

/-- The folded key built by `after_event`: `pname`, then `;` followed by
each stack entry in deque order. -/
def foldedKey (pname : Str) (stack : List Str) : Str :=
  pname ++ stack.foldr (fun e acc => ';' :: (e ++ acc)) []

/-- `PerfState::after_event`. -/
def after_event (s : PerfState) : PerfState :=
  { s with occurrences := bump s.occurrences (foldedKey s.pname s.stack),
           in_event := false, skip_stack := false, stack := [] }

/-- One iteration of the `handle_file` loop on an input line: `#` lines are
skipped, the line is trimmed, a blank line runs `after_event` and any other
line is dispatched through `on_line`. -/
def processLine (s : PerfState) (rawline : Str) : Option PerfState :=
  if rawline.head? = some '#' then some s
  else
    let line := trimEnd rawline
    if line = [] then some (after_event s) else on_line s line

/-- The whole `handle_file` loop over the input lines. -/
def runLines (s : PerfState) : List Str → Option PerfState
  | [] => some s
  | l :: ls => (processLine s l).bind (fun s' => runLines s' ls)

/-- Lexicographic (codepoint) comparison used by `keys.sort()`. -/
def lexLe : Str → Str → Bool
  | [], _ => true
  | _ :: _, [] => false
  | a :: as, b :: bs => if a = b then lexLe as bs else decide (a < b)

/-- Insertion into a sorted key list. -/
def insertKey (k : Str) : List Str → List Str
  | [] => [k]
  | x :: xs => if lexLe k x then k :: x :: xs else x :: insertKey k xs

/-- `keys.sort()` (insertion sort; the keys of the table are distinct, so
any comparison sort yields the same list). -/
def sortKeys : List Str → List Str
  | [] => []
  | x :: xs => insertKey x (sortKeys xs)

/-- `PerfState::finish`: the `<key> <count>` lines printed at stream end,
as (key, count) pairs in sorted key order. -/
def finish (s : PerfState) : List (Str × Nat) :=
  (sortKeys (s.occurrences.map Prod.fst)).map (fun k => (k, lookupOcc s.occurrences k))

/-- One input event: a header line and its stack-frame lines (the
terminating blank line is added by `eventLines`). -/
structure Event where
  header : Str
  frames : List Str
  deriving DecidableEq

/-- The input lines of one event: header, frames, terminating blank line. -/
def eventLines (e : Event) : List Str := e.header :: (e.frames ++ [[]])

/-- The frame contributed by one stack line, if any. -/
def frameOf (opt : Opt) (line : Str) : Option Str :=
  match stack_line_parts line with
  | .ok pc rawfunc module => processFrame opt pc rawfunc module
  | _ => none

/-- The process label produced by a header line (meaningful when the header
parses). -/
def labelOf (opt : Opt) (header : Str) : Str :=
  match event_line_parts header with
  | some (comm, pid, tid) => mkPname opt comm pid tid
  | none => []

/-- The folded key an event produces: its label, then its frames in
root-to-leaf order. Frames arrive leaf-first and are pushed to the front of
the deque, so the deque order is the reverse of the arrival order. -/
def keyOf (opt : Opt) (e : Event) : Str :=
  foldedKey (labelOf opt e.header) ((e.frames.filterMap (frameOf opt)).reverse)

/-- A line that reaches the classifier unchanged: nonempty, not a comment,
already free of trailing whitespace. -/
abbrev goodLine (l : Str) : Prop := l ≠ [] ∧ l.head? ≠ some '#' ∧ trimEnd l = l

/-- A well-formed stack-frame line: a good line that parses into a triple. -/
abbrev goodFrame (f : Str) : Prop := goodLine f ∧ (stack_line_parts f).isOk = true

/-- A well-formed header line: a good line from which PID/TID extraction
succeeds. -/
abbrev goodHeader (l : Str) : Prop := goodLine l ∧ (event_line_parts l).isSome = true

/-- A well-formed event: parsable header and parsable stack-frame lines. -/
abbrev wfEvent (e : Event) : Prop := goodHeader e.header ∧ ∀ f ∈ e.frames, goodFrame f

/-- Modelled from the spec's words for comparison with the code: "the last
path component of `module` (text after the final `/`, or the whole module
string if no `/`)". -/
def specLastPathComponent (m : Str) : Str :=
  ((m.reverse).takeWhile (fun c => c ≠ '/')).reverse

/-! ## Helper lemmas -/

theorem take_len_append (a r : Str) : (a ++ r).take a.length = a := by
  induction a with
  | nil => rfl
  | cons c cs ih => simp [ih]

theorem drop_len_add_append (a r : Str) (k : Nat) :
    (a ++ r).drop (a.length + k) = r.drop k := by
  induction a with
  | nil => simp
  | cons c cs ih => simp [Nat.succ_add, ih]

theorem runLines_append (a b : List Str) : ∀ s : PerfState,
    runLines s (a ++ b) = (runLines s a).bind (fun s' => runLines s' b) := by
  induction a with
  | nil => intro s; rfl
  | cons l ls ih =>
    intro s
    simp only [List.cons_append, runLines]
    cases processLine s l with
    | none => rfl
    | some s1 => exact ih s1

theorem lookupOcc_bump (m : List (Str × Nat)) (k' k : Str) :
    lookupOcc (bump m k') k = lookupOcc m k + (if k' = k then 1 else 0) := by
  induction m with
  | nil =>
    by_cases h : k' = k <;> simp [bump, lookupOcc, h]
  | cons p rest ih =>
    obtain ⟨a, n⟩ := p
    by_cases ha : a = k'
    · subst ha
      by_cases hk : a = k <;> simp [bump, lookupOcc, hk]
    · by_cases hk : a = k
      · subst hk
        have ha' : ¬k' = a := fun h => ha h.symm
        simp [bump, lookupOcc, ha, ih, ha']
      · simp [bump, lookupOcc, ha, hk, ih]

/-- `finish` depends only on the occurrence table. -/
theorem finish_congr {s t : PerfState} (h : s.occurrences = t.occurrences) :
    finish s = finish t := by
  unfold finish
  rw [h]

/-! ## Claim C2 -/

/-- Claim C2 counterexample: processing a blank line while `in_event` is
false is not a no-op on the occurrence table. On the initial state (where
`in_event` is false and the table is empty) a blank line creates the key
built from the empty `pname` with count 1, so the table changes. -/
theorem C2_counterexample :
    (PerfState.init optNone).in_event = false ∧
    (processLine (PerfState.init optNone) []).map PerfState.occurrences ≠
      some (PerfState.init optNone).occurrences := by
  decide

/-- Claim C2 as amended: processing a blank input line while `in_event` is
false is not a no-op. `after_event` runs unconditionally: it increments the
count of the key formed from the current `pname` and frame stack (creating
it with count 1 if absent) and resets `in_event`, `skip_stack` and the
frame stack; `pname`, the options and the diagnostics are unchanged. -/
theorem C2_blank_line_flushes (s : PerfState) (h : s.in_event = false) :
    processLine s [] = some
      { s with occurrences := bump s.occurrences (foldedKey s.pname s.stack),
               in_event := false, skip_stack := false, stack := [] } :=
  rfl

/-- Witness for C2_blank_line_flushes at the initial state. -/
theorem C2_blank_line_flushes_witness :
    processLine (PerfState.init optNone) [] = some
      { PerfState.init optNone with
        occurrences := bump (PerfState.init optNone).occurrences
          (foldedKey (PerfState.init optNone).pname (PerfState.init optNone).stack),
        in_event := false, skip_stack := false, stack := [] } :=
  C2_blank_line_flushes (PerfState.init optNone) rfl

/-! ## Claim C3 -/

/-- Claim C3 (code bug): a stack-frame line whose final space-delimited
token has length `< 2` does not fail gracefully: `stack_line_parts` slices
`&module[1..module.len() - 1]` unchecked, which in Rust panics (index
underflow for length 0, out-of-range slice for length 1), aborting the
whole run. The line `ffff foo x` reached during an event crashes the
program instead of producing a diagnostic. A line with no space-splittable
remainder (`ffffx`) does fail gracefully, as the claim states. -/
theorem C3_short_module_crashes :
    stack_line_parts ( "ffff foo x".data) = StackParts.crash ∧
    runLines (PerfState.init optNone)
      [ "java 100 1.0: cycles:".data, "ffff foo x".data] = none ∧
    stack_line_parts ( "ffffx".data) = StackParts.malformed := by
  decide

/-! ## Claim C4 -/

theorem replaceSemi_eq_self {s : Str} (h : ';' ∉ s) : replaceSemi s = s := by
  induction s with
  | nil => rfl
  | cons c cs ih =>
    simp only [List.mem_cons, not_or] at h
    have hc : ¬c = ';' := fun hc => h.1 hc.symm
    simp only [replaceSemi, List.map_cons, if_neg hc]
    exact congrArg (c :: ·) (ih h.2)

/-- Claim C4: in `tidy_generic`, a function name containing `(` is
truncated at the first `(`, with exactly two exceptions that leave the name
untouched: (a) the text at the position of the first `(` starts with
`anonymous namespace)`, and (b) the character immediately preceding the
first `(` is `.`. (Stated for names without `;`, on which the prior `;`
to `:` remapping is the identity; condition (a) compares the suffix that
begins with the `(` itself against `anonymous namespace)`, exactly as the
source does.) -/
theorem C4_paren_truncation (func : Str) (p : Nat)
    (hsemi : ';' ∉ func)
    (hp : func.findIdx? (fun c => c = '(') = some p) :
    tidy_generic func =
      if ( "anonymous namespace)".data).isPrefixOf (func.drop p) then func
      else if p ≠ 0 ∧ func[p - 1]? = some '.' then func
      else func.take p := by
  simp only [tidy_generic, replaceSemi_eq_self hsemi, hp]

/-- Witness for C4_paren_truncation: an argument list is stripped. -/
theorem C4_paren_truncation_witness :
    tidy_generic ( "foo(int)".data) = "foo".data := by
  rw [C4_paren_truncation ( "foo(int)".data) 3 (by decide) (by decide)]
  decide

/-! ## Claim C7 -/

theorem rfindPlus0x_eq_none {l : Str} (h : '+' ∉ l) : rfindPlus0x l = none := by
  induction l with
  | nil => rfl
  | cons c cs ih =>
    simp only [List.mem_cons, not_or] at h
    have hc : ¬c = '+' := fun hc => h.1 hc.symm
    have hs : startsPlus0x (c :: cs) = false := by
      unfold startsPlus0x
      split
      · rename_i heq
        exfalso
        injection heq with h1 _
        exact hc h1
      · rfl
    unfold rfindPlus0x
    rw [ih h.2, hs]
    rfl

theorem rfindPlus0x_at_boundary (a h : Str) (hh : h.all isAsciiHexDigit = true) :
    rfindPlus0x (a ++ '+' :: '0' :: 'x' :: h) = some a.length := by
  induction a with
  | nil =>
    have hplus : '+' ∉ ('0' :: 'x' :: h) := by
      simp only [List.mem_cons, not_or]
      refine ⟨by decide, by decide, fun hmem => ?_⟩
      have := List.all_eq_true.mp hh _ hmem
      simp [isAsciiHexDigit] at this
    simp only [List.nil_append, List.length_nil]
    unfold rfindPlus0x
    rw [rfindPlus0x_eq_none hplus]
    rfl
  | cons c cs ih =>
    simp only [List.cons_append, List.length_cons]
    unfold rfindPlus0x
    rw [ih]

/-- Claim C7: if the raw function name decomposes as `a ++ "+0x" ++ h` with
`h` hexadecimal through the end of the string, offset stripping truncates
at that `+` (such an occurrence of `+0x` is necessarily the last one, since
no hex digit is `+`); and the non-hex suffix `+0xZZ` is not stripped. -/
theorem C7_offset_stripping :
    (∀ (a h : Str), h.all isAsciiHexDigit = true →
        strip_offset (a ++ '+' :: '0' :: 'x' :: h) = a) ∧
    strip_offset ( "f+0xZZ".data) = "f+0xZZ".data := by
  constructor
  · intro a h hh
    have hdrop : (a ++ '+' :: '0' :: 'x' :: h).drop (a.length + 3) = h := by
      rw [drop_len_add_append]
      rfl
    simp only [strip_offset, rfindPlus0x_at_boundary a h hh, hdrop, hh, if_true]
    exact take_len_append a _
  · decide

/-- Witness for C7_offset_stripping: `f+0x12` is stripped to `f`. -/
theorem C7_offset_stripping_witness :
    strip_offset ( "f".data ++ '+' :: '0' :: 'x' :: "12".data) = "f".data :=
  C7_offset_stripping.1 ( "f".data) ( "12".data) (by decide)

/-! ## Claim C8 -/

theorem takeWhile_append_of_all {p : Char → Bool} {l : Str} (r : Str)
    (h : ∀ x ∈ l, p x = true) :
    (l ++ r).takeWhile p = l ++ r.takeWhile p := by
  induction l with
  | nil => rfl
  | cons c cs ih =>
    have hc : p c = true := h c (by simp)
    simp only [List.cons_append, List.takeWhile_cons, hc, if_true]
    rw [ih (fun x hx => h x (by simp [hx]))]

theorem takeWhile_append_of_stop {p : Char → Bool} {l : Str} (r : Str)
    (h : ∃ x ∈ l, p x = false) :
    (l ++ r).takeWhile p = l.takeWhile p := by
  induction l with
  | nil => simp at h
  | cons c cs ih =>
    by_cases hc : p c = true
    · simp only [List.cons_append, List.takeWhile_cons, hc, if_true]
      obtain ⟨x, hx, hpx⟩ := h
      rcases List.mem_cons.mp hx with hx | hx
      · rw [hx] at hpx
        rw [hc] at hpx
        exact absurd hpx (by simp)
      · rw [ih ⟨x, hx, hpx⟩]
    · have hc' : p c = false := by
        cases hpc : p c with
        | false => rfl
        | true => exact absurd hpc hc
      simp [List.takeWhile_cons, hc']

theorem rfindIdx_none_all {p : Char → Bool} {l : Str} (h : rfindIdx p l = none) :
    ∀ x ∈ l, p x = false := by
  induction l with
  | nil => intro x hx; simp at hx
  | cons c cs ih =>
    intro x hx
    unfold rfindIdx at h
    cases hr : rfindIdx p cs with
    | some i => rw [hr] at h; exact absurd h (by simp)
    | none =>
      rw [hr] at h
      have hc : p c = false := by
        by_cases hpc : p c = true
        · rw [if_pos hpc] at h; exact absurd h (by simp)
        · cases hpc2 : p c with
          | false => rfl
          | true => exact absurd hpc2 hpc
      rcases List.mem_cons.mp hx with hx | hx
      · rw [hx]; exact hc
      · exact ih hr x hx

theorem rfindIdx_some_mem {p : Char → Bool} {l : Str} {i : Nat}
    (h : rfindIdx p l = some i) : ∃ x ∈ l, p x = true := by
  induction l generalizing i with
  | nil => simp [rfindIdx] at h
  | cons c cs ih =>
    unfold rfindIdx at h
    cases hr : rfindIdx p cs with
    | some j =>
      obtain ⟨x, hx, hpx⟩ := ih hr
      exact ⟨x, by simp [hx], hpx⟩
    | none =>
      rw [hr] at h
      by_cases hpc : p c = true
      · exact ⟨c, by simp, hpc⟩
      · rw [if_neg hpc] at h
        exact absurd h (by simp)

/-- The module-suffix computation of `with_module_fallback` (`rfind('/')`
plus slicing) computes the spec's "last path component". -/
theorem drop_rfind_slash_eq_spec (m : Str) :
    m.drop (((rfindIdx (fun c => c = '/') m).map (fun i => i + 1)).getD 0) =
      specLastPathComponent m := by
  induction m with
  | nil => rfl
  | cons c cs ih =>
    unfold specLastPathComponent at *
    cases hr : rfindIdx (fun c => c = '/') cs with
    | some i =>
      have hmem : ∃ x ∈ cs.reverse, (fun c => decide (c ≠ '/')) x = false := by
        obtain ⟨x, hx, hpx⟩ := rfindIdx_some_mem hr
        refine ⟨x, by simp [hx], ?_⟩
        simp only [decide_eq_true_eq] at hpx
        simp [hpx]
      simp only [rfindIdx, hr, Option.map_some, Option.getD_some, List.drop_succ_cons,
        List.reverse_cons]
      rw [takeWhile_append_of_stop _ hmem]
      rw [hr] at ih
      simpa using ih
    | none =>
      have hall : ∀ x ∈ cs.reverse, (fun c => decide (c ≠ '/')) x = true := by
        intro x hx
        have := rfindIdx_none_all hr x (by simpa using hx)
        simp only [decide_eq_true_eq] at this ⊢
        intro hxe
        rw [hxe] at this
        simp at this
      by_cases hc : c = '/'
      · subst hc
        have hidx : rfindIdx (fun c => c = '/') ('/' :: cs) = some 0 := by
          unfold rfindIdx
          rw [hr]
          simp
        simp only [hidx, Option.map_some, Option.getD_some, List.drop_succ_cons,
          List.drop_zero, List.reverse_cons]
        rw [takeWhile_append_of_all _ hall]
        simp
      · have hidx : rfindIdx (fun c => c = '/') (c :: cs) = none := by
          unfold rfindIdx
          rw [hr]
          simp [hc]
        simp only [hidx, Option.map_none, Option.getD_none, List.drop_zero,
          List.reverse_cons]
        rw [takeWhile_append_of_all _ hall]
        simp [hc]

/-- Claim C8: when `rawfunc` is `[unknown]`, the substituted name is the
last path component of the module (the whole module if it has no `/`) when
the module is not `[unknown]`, else the literal `unknown`; the result is
wrapped in brackets, with ` <pc>` appended inside before the closing
bracket when `include_addrs` is set. -/
theorem C8_unknown_fallback (module rawfunc pc : Str) (ia : Bool)
    (h : rawfunc = "[unknown]".data) :
    with_module_fallback module rawfunc pc ia =
      (let name := if module ≠ "[unknown]".data then specLastPathComponent module
                   else "unknown".data
       if ia then '[' :: (name ++ ' ' :: '<' :: (pc ++ ">]".data))
       else '[' :: (name ++ "]".data)) := by
  subst h
  unfold with_module_fallback
  rw [if_pos rfl]
  simp only [drop_rfind_slash_eq_spec]

/-- Witness for C8_unknown_fallback: the claim's two concrete examples. -/
theorem C8_unknown_fallback_witness :
    with_module_fallback ( "/path/to/foo.so".data) ( "[unknown]".data)
        ( "1234".data) false = "[foo.so]".data ∧
    with_module_fallback ( "/path/to/foo.so".data) ( "[unknown]".data)
        ( "1234".data) true = "[foo.so <1234>]".data := by
  constructor
  · rw [C8_unknown_fallback ( "/path/to/foo.so".data) ( "[unknown]".data)
      ( "1234".data) false rfl]
    decide
  · rw [C8_unknown_fallback ( "/path/to/foo.so".data) ( "[unknown]".data)
      ( "1234".data) true rfl]
    decide

/-! ## Claim C10 -/

theorem semi_not_mem_replaceSemi (s : Str) : ';' ∉ replaceSemi s := by
  intro h
  obtain ⟨a, _, ha⟩ := List.mem_map.mp h
  by_cases hsemi : a = ';'
  · rw [if_pos hsemi] at ha
    exact absurd ha (by decide)
  · rw [if_neg hsemi] at ha
    exact hsemi ha

theorem semi_not_mem_append {x y : Str} (hx : ';' ∉ x) (hy : ';' ∉ y) :
    ';' ∉ x ++ y := by
  intro h
  rcases List.mem_append.mp h with h | h
  · exact hx h
  · exact hy h

theorem semi_not_mem_tidy_generic (f : Str) : ';' ∉ tidy_generic f := by
  simp only [tidy_generic]
  split
  · exact semi_not_mem_replaceSemi f
  · split
    · exact semi_not_mem_replaceSemi f
    · split
      · exact semi_not_mem_replaceSemi f
      · intro hmem
        exact semi_not_mem_replaceSemi f (List.take_subset _ _ hmem)

/-- Claim C10: the `;` to `:` remapping is applied only to frame names.
The process label is the comm with only spaces replaced by underscores (so
a `;` in the comm survives into the label), while no frame produced by
`processFrame` ever contains `;`. Consequently comm `a;b` with no frames
and comm `a` with one frame `b` fold to the same key `a;b`. -/
theorem C10_semicolon_ambiguity :
    (∀ (opt : Opt) (comm pid tid : Str), opt.include_tid = false →
        opt.include_pid = false → mkPname opt comm pid tid = replaceSpaces comm) ∧
    (∀ (opt : Opt) (comm pid tid : Str), ';' ∈ comm →
        ';' ∈ mkPname opt comm pid tid) ∧
    (∀ (opt : Opt) (pc rawfunc module f : Str),
        processFrame opt pc rawfunc module = some f → ';' ∉ f) ∧
    ((runLines (PerfState.init optNone) [ "a;b 10 1.0: x:".data, []]).map
        (fun s => lookupOcc s.occurrences ( "a;b".data)) = some 1 ∧
     (runLines (PerfState.init optNone)
        [ "a 10 1.0: x:".data, " ffff b (m.so)".data, []]).map
        (fun s => lookupOcc s.occurrences ( "a;b".data)) = some 1) := by
  refine ⟨?_, ?_, ?_, by decide, by decide⟩
  · intro opt comm pid tid htid hpid
    unfold mkPname
    rw [htid, hpid]
    simp
  · intro opt comm pid tid hmem
    have hrep : ';' ∈ replaceSpaces comm := by
      refine List.mem_map.mpr ⟨';', hmem, ?_⟩
      decide
    unfold mkPname
    by_cases htid : opt.include_tid = true
    · rw [if_pos htid]
      exact List.mem_append_left _ hrep
    · rw [if_neg htid]
      by_cases hpid : opt.include_pid = true
      · rw [if_pos hpid]
        exact List.mem_append_left _ hrep
      · rw [if_neg hpid]
        exact hrep
  · intro opt pc rawfunc module f hf
    unfold processFrame at hf
    by_cases hparen : (strip_offset rawfunc).head? = some '('
    · rw [if_pos hparen] at hf
      exact absurd hf (by simp)
    · rw [if_neg hparen] at hf
      simp only [Option.some.injEq] at hf
      subst hf
      have hk : ';' ∉ ( "_[k]".data : Str) := by decide
      have hj : ';' ∉ ( "_[j]".data : Str) := by decide
      have ht := semi_not_mem_tidy_generic
        (with_module_fallback module (strip_offset rawfunc) pc opt.include_addrs)
      split
      · refine semi_not_mem_append ?_ hj
        split
        · exact semi_not_mem_append ht hk
        · exact ht
      · split
        · exact semi_not_mem_append ht hk
        · exact ht

/-- Witness for C10_semicolon_ambiguity: a comm containing `;` yields a
label containing `;`. -/
theorem C10_semicolon_ambiguity_witness :
    ';' ∈ mkPname optNone ( "a;b".data) [] [] :=
  C10_semicolon_ambiguity.2.1 optNone ( "a;b".data) [] [] (by decide)

/-! ## Claim C9 -/

theorem elpRun_append (a b : Str) : ∀ (idx : Nat) (st : ElpSt),
    elpRun idx st (a ++ b) =
      (match elpRun idx st a with
       | .inl st' => elpRun (idx + a.length) st' b
       | .inr r => .inr r) := by
  induction a with
  | nil => intro idx st; simp [elpRun]
  | cons c cs ih =>
    intro idx st
    simp only [List.cons_append, elpRun, List.length_cons, List.append_eq]
    by_cases hsp : c = ' '
    · rw [if_pos hsp, if_pos hsp]
      by_cases hd : st.all_digits = true
      · rw [if_pos hd, if_pos hd]
      · rw [if_neg hd, if_neg hd, ih]
        have : idx + 1 + cs.length = idx + (cs.length + 1) := by omega
        rw [this]
    · rw [if_neg hsp, if_neg hsp]
      have harith : idx + 1 + cs.length = idx + (cs.length + 1) := by omega
      by_cases hsl : c = '/'
      · rw [if_pos hsl, if_pos hsl, ih, harith]
      · rw [if_neg hsl, if_neg hsl]
        by_cases hdg : c.isDigit = true
        · rw [if_pos hdg, if_pos hdg, ih, harith]
        · rw [if_neg hdg, if_neg hdg, ih, harith]

/-- Claim C9 (implicit): in `event_line_parts` an empty word (two adjacent
spaces) is treated as a completed purely-numeric word. If scanning the
prefix before the first adjacent-space pair returns no result and ends
with `all_digits` false (no nonempty all-digit word completed in it, and
the prefix does not end inside one), extraction succeeds at the second
space of the pair with comm the text before the pair, PID `?` and TID the
empty string — regardless of any numeric word later in the line. -/
theorem C9_empty_word (pre rest : Str) (ws : Nat)
    (h : elpRun 0 ⟨0, false, none⟩ pre = .inl ⟨ws, false, none⟩) :
    event_line_parts (pre ++ ' ' :: ' ' :: rest) = some (pre, ['?'], []) := by
  have hstep : elpRun (0 + pre.length) ⟨ws, false, none⟩ (' ' :: ' ' :: rest) =
      .inr (pre.length + 1, none, pre.length + 1) := by
    simp [elpRun]
  have htake : (pre ++ ' ' :: ' ' :: rest).take (pre.length + 1 - 1) = pre := by
    have h1 : pre.length + 1 - 1 = pre.length := by omega
    rw [h1]
    exact take_len_append pre _
  have hslice : slice (pre ++ ' ' :: ' ' :: rest) (pre.length + 1) (pre.length + 1) = [] := by
    unfold slice
    apply List.drop_eq_nil_of_le
    exact List.length_take_le _ _
  unfold event_line_parts
  rw [elpRun_append, h]
  simp only [hstep, htake, hslice]

/-- Witness for C9_empty_word: the spec's own example header line
`vote   913    72.176760: ...` parses to comm `vote`, PID `?`, empty TID. -/
theorem C9_empty_word_witness :
    event_line_parts ( "vote".data ++ ' ' :: ' ' ::
        " 913    72.176760:     257597 cycles:uppp:".data) =
      some ( "vote".data, ['?'], []) :=
  C9_empty_word ( "vote".data) ( " 913    72.176760:     257597 cycles:uppp:".data) 0
    (by decide)

/-! ## Claim C5 -/

/-- Claim C5: an event-header line with no purely-numeric word emits a
diagnostic and leaves every other piece of state unchanged with `in_event`
false, so the next line is attempted as a fresh header; and in a stream
with a malformed header line followed by a valid event, only the valid
event is counted (with exactly one diagnostic produced). -/
theorem C5_malformed_header :
    (∀ (s : PerfState) (line : Str), s.in_event = false → line ≠ [] →
        line.head? ≠ some '#' → trimEnd line = line →
        event_line_parts line = none →
        processLine s line = some
          { s with in_event := false,
                   diags := s.diags ++ [ "weird event line: ".data ++ line] }) ∧
    ((runLines (PerfState.init optNone)
        [ "badheader".data, "java 100 1.0: cycles:".data, []]).map
      (fun s => (s.occurrences, s.diags.length)) =
        some ([( "java".data, 1)], 1)) := by
  constructor
  · intro s line hin hne hhash htrim hparse
    unfold processLine on_line on_event_line
    rw [if_neg hhash, htrim, if_neg hne, if_pos hin, hparse]
  · decide

/-- Witness for C5_malformed_header: the no-digit line `badheader` on the
initial state. -/
theorem C5_malformed_header_witness :
    processLine (PerfState.init optNone) ( "badheader".data) = some
      { PerfState.init optNone with
        in_event := false,
        diags := (PerfState.init optNone).diags ++
          [ "weird event line: ".data ++ "badheader".data] } :=
  C5_malformed_header.1 (PerfState.init optNone) ( "badheader".data) rfl
    (by decide) (by decide) (by decide) (by decide)

/-! ## Claim C6 -/

theorem occurrences_processLine_nonblank {s s' : PerfState} {l : Str}
    (hl : trimEnd l ≠ []) (h : processLine s l = some s') :
    s'.occurrences = s.occurrences := by
  unfold processLine at h
  split at h
  · cases h
    rfl
  · rw [if_neg hl] at h
    unfold on_line at h
    split at h
    · cases h
      simp only [on_event_line]
      split
      · rfl
      · rfl
    · unfold on_stack_line at h
      split at h
      · cases h
        rfl
      · split at h
        · exact absurd h (by simp)
        · cases h
          rfl
        · split at h
          · cases h
            rfl
          · cases h
            rfl

/-- Claim C6: only explicit blank lines finalize an event. Running the
parser over any suffix of nonblank lines (an event left unterminated at
end of stream) changes no occurrence count, and `finish` — which never
invokes `after_event` — emits exactly what it would emit without those
lines: the in-progress event is silently dropped. -/
theorem C6_unterminated_event_dropped (s : PerfState) (lines : List Str)
    (s' : PerfState)
    (hnb : ∀ l ∈ lines, trimEnd l ≠ [])
    (hrun : runLines s lines = some s') :
    s'.occurrences = s.occurrences ∧ finish s' = finish s := by
  suffices hocc : s'.occurrences = s.occurrences by
    exact ⟨hocc, finish_congr hocc⟩
  induction lines generalizing s with
  | nil =>
    cases hrun
    rfl
  | cons l ls ih =>
    unfold runLines at hrun
    cases hpl : processLine s l with
    | none => rw [hpl] at hrun; exact absurd hrun (by simp)
    | some s1 =>
      rw [hpl] at hrun
      have h1 : s1.occurrences = s.occurrences :=
        occurrences_processLine_nonblank (hnb l (by simp)) hpl
      have h2 := ih s1 (fun x hx => hnb x (by simp [hx])) hrun
      rw [h2, h1]

/-- Witness for C6_unterminated_event_dropped: a header plus one frame with
no terminating blank line leaves the table empty. -/
theorem C6_unterminated_event_dropped_witness :
    (runLines (PerfState.init optNone)
        [ "java 100 1.0: cycles:".data, "  ffff foo (/lib/a.so)".data]).map
      PerfState.occurrences = some [] := by
  cases hrun : runLines (PerfState.init optNone)
      [ "java 100 1.0: cycles:".data, "  ffff foo (/lib/a.so)".data] with
  | none => exact absurd hrun (by decide)
  | some s' =>
    have h := C6_unterminated_event_dropped (PerfState.init optNone) _ s' (by decide) hrun
    simp [h.1, PerfState.init]

/-! ## Claim C1 -/

/-- Running the parser over the stack lines of one event pushes exactly the
processed frames, front-first, and touches nothing else. -/
theorem run_frames (opt : Opt) (frames : List Str) : ∀ (s : PerfState),
    s.opt = opt → s.in_event = true → s.skip_stack = false →
    (∀ f ∈ frames, goodFrame f) →
    runLines s frames = some
      { s with stack := (frames.filterMap (frameOf opt)).reverse ++ s.stack } := by
  induction frames with
  | nil =>
    intro s _ _ _ _
    rfl
  | cons f fs ih =>
    intro s hopt hin hskip hgood
    obtain ⟨⟨hne, hhash, htrim⟩, hok⟩ := hgood f (by simp)
    have hpls : processLine s f = on_stack_line s f := by
      have hinf : ¬(s.in_event = false) := by simp [hin]
      unfold processLine on_line
      rw [if_neg hhash, htrim, if_neg hne, if_neg hinf]
    cases hsp : stack_line_parts f with
    | malformed => rw [hsp] at hok; simp [StackParts.isOk] at hok
    | crash => rw [hsp] at hok; simp [StackParts.isOk] at hok
    | ok pc r m =>
      cases hpf : processFrame opt pc r m with
      | none =>
        have hfo : frameOf opt f = none := by simp [frameOf, hsp, hpf]
        have hsl : on_stack_line s f = some s := by
          simp [on_stack_line, hskip, hsp, hopt, hpf]
        have hrec := ih s hopt hin hskip (fun g hg => hgood g (by simp [hg]))
        calc runLines s (f :: fs)
            = (processLine s f).bind (fun s' => runLines s' fs) := rfl
          _ = runLines s fs := by rw [hpls, hsl]; rfl
          _ = some { s with
                stack := (fs.filterMap (frameOf opt)).reverse ++ s.stack } := hrec
          _ = some { s with
                stack := ((f :: fs).filterMap (frameOf opt)).reverse ++ s.stack } := by
              simp [List.filterMap_cons, hfo]
      | some func =>
        have hfo : frameOf opt f = some func := by simp [frameOf, hsp, hpf]
        have hsl : on_stack_line s f = some { s with stack := func :: s.stack } := by
          simp [on_stack_line, hskip, hsp, hopt, hpf]
        have hrec := ih { s with stack := func :: s.stack } hopt hin hskip
          (fun g hg => hgood g (by simp [hg]))
        calc runLines s (f :: fs)
            = (processLine s f).bind (fun s' => runLines s' fs) := rfl
          _ = runLines { s with stack := func :: s.stack } fs := by
              rw [hpls, hsl]
              rfl
          _ = some { s with
                stack := (fs.filterMap (frameOf opt)).reverse ++ func :: s.stack } := hrec
          _ = some { s with
                stack := ((f :: fs).filterMap (frameOf opt)).reverse ++ s.stack } := by
              simp [List.filterMap_cons, hfo]

/-- Running the parser over one well-formed event's lines bumps exactly the
event's key, sets `pname` to its label, and restores the event-boundary
invariant. -/
theorem run_event (opt : Opt) (e : Event) (s : PerfState)
    (hopt : s.opt = opt) (hin : s.in_event = false) (hskip : s.skip_stack = false)
    (hstk : s.stack = []) (hwf : wfEvent e) :
    runLines s (eventLines e) = some
      { s with pname := labelOf opt e.header,
               occurrences := bump s.occurrences (keyOf opt e),
               in_event := false, skip_stack := false, stack := [] } := by
  obtain ⟨⟨⟨hne, hhash, htrim⟩, hps⟩, hframes⟩ := hwf
  obtain ⟨t, hp⟩ := Option.isSome_iff_exists.mp hps
  obtain ⟨comm, pid, tid⟩ := t
  have hlab : labelOf opt e.header = mkPname opt comm pid tid := by
    simp [labelOf, hp]
  have hhdr : processLine s e.header = some
      { s with in_event := true, pname := mkPname opt comm pid tid } := by
    unfold processLine on_line on_event_line
    rw [if_neg hhash, htrim, if_neg hne, if_pos hin, hp]
    simp [hopt]
  have hfr := run_frames opt e.frames
    { s with in_event := true, pname := mkPname opt comm pid tid }
    hopt rfl hskip hframes
  calc runLines s (eventLines e)
      = (processLine s e.header).bind
          (fun s' => runLines s' (e.frames ++ [[]])) := rfl
    _ = runLines { s with in_event := true, pname := mkPname opt comm pid tid }
          (e.frames ++ [[]]) := by rw [hhdr]; rfl
    _ = (runLines { s with in_event := true, pname := mkPname opt comm pid tid }
          e.frames).bind (fun s' => runLines s' [[]]) := runLines_append _ _ _
    _ = runLines { s with in_event := true,
                          pname := mkPname opt comm pid tid,
                          stack := (e.frames.filterMap (frameOf opt)).reverse
                            ++ s.stack } [[]] := by
        rw [hfr]
        rfl
    _ = some (after_event { s with in_event := true,
                                   pname := mkPname opt comm pid tid,
                                   stack :=
                                     (e.frames.filterMap (frameOf opt)).reverse
                                       ++ s.stack }) := rfl
    _ = some { s with pname := labelOf opt e.header,
                      occurrences := bump s.occurrences (keyOf opt e),
                      in_event := false, skip_stack := false,
                      stack := [] } := by
        simp [after_event, keyOf, hlab, hstk]

/-- Running the parser over a stream of well-formed events folds one bump
per event over the occurrence table. -/
theorem run_events (opt : Opt) (events : List Event) : ∀ (s : PerfState),
    s.opt = opt → s.in_event = false → s.skip_stack = false → s.stack = [] →
    (∀ e ∈ events, wfEvent e) →
    ∃ pn, runLines s ((events.map eventLines).flatten) = some
      { s with pname := pn,
               occurrences :=
                 events.foldl (fun mm e => bump mm (keyOf opt e)) s.occurrences,
               in_event := false, skip_stack := false, stack := [] } := by
  induction events with
  | nil =>
    intro s hopt hin hskip hstk _
    obtain ⟨ie, sk, st, occ, pn, o, dg⟩ := s
    simp only at hin hskip hstk
    subst hin hskip hstk
    exact ⟨pn, rfl⟩
  | cons e es ih =>
    intro s hopt hin hskip hstk hwf
    have hev := run_event opt e s hopt hin hskip hstk (hwf e (by simp))
    obtain ⟨pn, hrec⟩ := ih
      { s with pname := labelOf opt e.header,
               occurrences := bump s.occurrences (keyOf opt e),
               in_event := false, skip_stack := false, stack := [] }
      hopt rfl rfl rfl (fun x hx => hwf x (by simp [hx]))
    refine ⟨pn, ?_⟩
    calc runLines s ((List.map eventLines (e :: es)).flatten)
        = runLines s (eventLines e ++ (es.map eventLines).flatten) := by
          simp
      _ = (runLines s (eventLines e)).bind
            (fun s' => runLines s' ((es.map eventLines).flatten)) :=
          runLines_append _ _ _
      _ = runLines
            { s with pname := labelOf opt e.header,
                     occurrences := bump s.occurrences (keyOf opt e),
                     in_event := false, skip_stack := false, stack := [] }
            ((es.map eventLines).flatten) := by rw [hev]; rfl
      _ = some { s with pname := pn,
                        occurrences := (e :: es).foldl
                          (fun mm e => bump mm (keyOf opt e)) s.occurrences,
                        in_event := false, skip_stack := false,
                        stack := [] } := hrec

theorem lookupOcc_foldl_bump (opt : Opt) (k : Str) (events : List Event) :
    ∀ m, lookupOcc (events.foldl (fun mm e => bump mm (keyOf opt e)) m) k =
      lookupOcc m k + events.countP (fun e => decide (keyOf opt e = k)) := by
  induction events with
  | nil => intro m; simp
  | cons e es ih =>
    intro m
    rw [List.foldl_cons, ih, lookupOcc_bump, List.countP_cons]
    by_cases hk : keyOf opt e = k
    · simp only [hk, if_pos rfl, decide_eq_true_eq]
      simp
      omega
    · simp [hk]

/-- Claim C1: for a well-formed input stream — each event a parsable header
line, zero or more parsable stack-frame lines and a terminating blank
line — the count recorded (and emitted by `finish`) for a folded key equals
the number of events whose (process label, root-to-leaf frame sequence)
pair folds to that key; frames arrive leaf-first and are front-inserted, so
the key lists the root first (`keyOf` reverses the arrival order). -/
theorem C1_occurrence_counts (opt : Opt) (events : List Event) (k : Str)
    (hwf : ∀ e ∈ events, wfEvent e) :
    ∃ s', runLines (PerfState.init opt) ((events.map eventLines).flatten) = some s' ∧
      lookupOcc s'.occurrences k =
        events.countP (fun e => decide (keyOf opt e = k)) ∧
      ∀ n, (k, n) ∈ finish s' →
        n = events.countP (fun e => decide (keyOf opt e = k)) := by
  obtain ⟨pn, hrun⟩ := run_events opt events (PerfState.init opt) rfl rfl rfl rfl hwf
  have hcount : lookupOcc (events.foldl (fun mm e => bump mm (keyOf opt e)) []) k =
      events.countP (fun e => decide (keyOf opt e = k)) := by
    rw [lookupOcc_foldl_bump]
    simp [lookupOcc]
  refine ⟨_, hrun, hcount, ?_⟩
  intro n hmem
  unfold finish at hmem
  obtain ⟨a, _, heq⟩ := List.mem_map.mp hmem
  injection heq with h1 h2
  subst h1
  rw [← h2]
  exact hcount

/-- Witness for C1_occurrence_counts: the spec's end-to-end scenario — the
same event (comm `java`, frames `foo` then `bar`) twice — yields count 2
for the key `java;bar;foo`. -/
theorem C1_occurrence_counts_witness :
    ∃ s', runLines (PerfState.init optNone)
        (([⟨ "java 100 1.0: cycles:".data,
             [ "  ffff foo (/lib/a.so)".data, "  ffff bar (/lib/a.so)".data]⟩,
           ⟨ "java 100 1.0: cycles:".data,
             [ "  ffff foo (/lib/a.so)".data, "  ffff bar (/lib/a.so)".data]⟩] :
          List Event).map eventLines).flatten = some s' ∧
      lookupOcc s'.occurrences ( "java;bar;foo".data) = 2 := by
  obtain ⟨s', h1, h2, h3⟩ := C1_occurrence_counts optNone
    [⟨ "java 100 1.0: cycles:".data,
       [ "  ffff foo (/lib/a.so)".data, "  ffff bar (/lib/a.so)".data]⟩,
     ⟨ "java 100 1.0: cycles:".data,
       [ "  ffff foo (/lib/a.so)".data, "  ffff bar (/lib/a.so)".data]⟩]
    ( "java;bar;foo".data) (by decide)
  refine ⟨s', h1, ?_⟩
  rw [h2]
  decide

end Inferno
